import Mathlib

/-!
Shallow embedding of the 52WeekHighApp ingestion-and-derived-metrics core.

Sources embedded here:
- `src/Data/highs_pipeline.py`, class `HighsIngestor`, method `_ingest_file`
  (the pandas CSV ingestion loop, the `SELECT MIN(date), MIN(market_cap)`
  first-seen query, and the `INSERT INTO highs` append);
- `src/db_utils.py`, function `get_momentum_summary` (the rolling hit-count
  queries, the latest-row selection, and the percent-gain column);
- `src/views/daily_viewer.py`, `main`, Date Range branch (per-date reads,
  `pd.concat`, `drop_duplicates(subset=['name'])`).

Modelling conventions:
- Calendar dates are integers (day numbers).  Dates are stored on disk as
  ISO `YYYY-MM-DD` text, whose lexicographic order agrees with the calendar
  order, so SQL `MIN(date)` is the integer minimum here.
- A pandas cell is `Cell`: missing (NaN / NA), a finite number, or a string.
- A Python float value is `PFloat`: NaN, +inf, -inf, or a finite rational.
  Python's `float(x)` inside the `try/except (ValueError, TypeError)` of the
  source is `pyFloat`; note `float` applied to a missing (NaN) cell succeeds
  and returns NaN, it does not raise.
- SQLite has no NaN: binding a Python float NaN stores NULL (`bindReal`).
  Reading a NULL REAL back into pandas yields NaN (`unSQL`).
- pandas column arithmetic follows IEEE-754 semantics on `PFloat`
  (`pSub`, `pMul`, `pDiv`); in particular a positive number divided by zero
  is +inf, not an error.
-/

/-- A pandas cell value as seen by the ingestion loop: missing (NaN/NA),
a finite number, or a string. -/
inductive Cell where
  | na : Cell
  | num : ℚ → Cell
  | str : String → Cell
deriving DecidableEq

/-- A Python float value: NaN, positive infinity, negative infinity, or a
finite value (modelled as a rational). -/
inductive PFloat where
  | nan : PFloat
  | inf : PFloat
  | ninf : PFloat
  | num : ℚ → PFloat
deriving DecidableEq

/-- Models `pd.isna` on a cell: true exactly for the missing value. -/
def pdIsna : Cell → Bool
  | Cell.na => true
  | _ => false

/-- Digit run check used by the float-literal parser. -/
def isDigits (l : List Char) : Bool :=
  !l.isEmpty && l.all (·.isDigit)

/-- Numeric value of a run of decimal digits. -/
def digitsVal (l : List Char) : ℕ :=
  l.foldl (fun a c => 10 * a + (c.toNat - 48)) 0

/-- Strips leading and trailing whitespace from a character list; the
character-level content of Python `str.strip()` / pandas `.str.strip()`. -/
def stripChars (l : List Char) : List Char :=
  ((l.dropWhile Char.isWhitespace).reverse.dropWhile Char.isWhitespace).reverse

/-- Strips leading and trailing whitespace from a string
(pandas `df.columns.str.strip()` applied to one header). -/
def stripStr (s : String) : String :=
  ⟨stripChars s.data⟩

/-- Splits a character list at the first occurrence of `c`, reporting whether
the separator was present. -/
def splitFirst (c : Char) : List Char → List Char × Option (List Char)
  | [] => ([], none)
  | x :: xs =>
    if x = c then ([], some xs)
    else
      let p := splitFirst c xs
      (x :: p.1, p.2)

/-- Parses an unsigned decimal float literal `digits[.digits][e[±]digits]`
(at least one digit in the mantissa), as accepted by Python `float`. -/
def parseDecimalQ (t : List Char) : Option ℚ :=
  let me := splitFirst 'e' (t.map Char.toLower)
  let expVal : Option ℤ :=
    match me.2 with
    | none => some 0
    | some ep =>
      let se : ℤ × List Char :=
        match ep with
        | '+' :: r => (1, r)
        | '-' :: r => (-1, r)
        | r => (1, r)
      if isDigits se.2 then some (se.1 * (digitsVal se.2 : ℤ)) else none
  match expVal with
  | none => none
  | some e =>
    let ipfp := splitFirst '.' me.1
    let ip := ipfp.1
    let fp := (ipfp.2).getD []
    if ip.all (·.isDigit) ∧ fp.all (·.isDigit) ∧ (ip ≠ [] ∨ fp ≠ []) then
      some ((digitsVal (ip ++ fp) : ℚ) / (10 : ℚ) ^ fp.length * (10 : ℚ) ^ e)
    else none

/-- Models Python `float` applied to a string: optional surrounding
whitespace, optional sign, then `nan`, `inf`/`infinity` or a decimal
literal; `none` models the `ValueError` branch. -/
def parsePyFloat (s : String) : Option PFloat :=
  let t := stripChars s.data
  let st : ℤ × List Char :=
    match t with
    | '+' :: r => (1, r)
    | '-' :: r => (-1, r)
    | r => (1, r)
  let low := st.2.map Char.toLower
  if low = "nan".toList then some PFloat.nan
  else if low = "inf".toList ∨ low = "infinity".toList then
    some (if st.1 = 1 then PFloat.inf else PFloat.ninf)
  else
    match parseDecimalQ st.2 with
    | some q => some (PFloat.num ((st.1 : ℚ) * q))
    | none => none

/-- Models `float(cell)` under `try/except (ValueError, TypeError)`:
a missing cell is the float NaN and parses successfully; a numeric cell is
itself; a string either parses or raises (`none`). -/
def pyFloat : Cell → Option PFloat
  | Cell.na => some PFloat.nan
  | Cell.num q => some (PFloat.num q)
  | Cell.str s => parsePyFloat s

/-- Models binding a Python float into an SQLite REAL column: SQLite has no
NaN representation, so NaN is stored as NULL. -/
def bindReal : PFloat → Option PFloat
  | PFloat.nan => none
  | v => some v

/-- Models reading an SQLite REAL column into pandas: NULL becomes NaN. -/
def unSQL : Option PFloat → PFloat
  | none => PFloat.nan
  | some v => v

/-- IEEE-style subtraction on Python floats. -/
def pSub : PFloat → PFloat → PFloat
  | PFloat.nan, _ => PFloat.nan
  | _, PFloat.nan => PFloat.nan
  | PFloat.num a, PFloat.num b => PFloat.num (a - b)
  | PFloat.num _, PFloat.inf => PFloat.ninf
  | PFloat.num _, PFloat.ninf => PFloat.inf
  | PFloat.inf, PFloat.num _ => PFloat.inf
  | PFloat.inf, PFloat.inf => PFloat.nan
  | PFloat.inf, PFloat.ninf => PFloat.inf
  | PFloat.ninf, PFloat.num _ => PFloat.ninf
  | PFloat.ninf, PFloat.inf => PFloat.ninf
  | PFloat.ninf, PFloat.ninf => PFloat.nan

/-- IEEE-style multiplication on Python floats. -/
def pMul : PFloat → PFloat → PFloat
  | PFloat.nan, _ => PFloat.nan
  | _, PFloat.nan => PFloat.nan
  | PFloat.num a, PFloat.num b => PFloat.num (a * b)
  | PFloat.num a, PFloat.inf =>
    if 0 < a then PFloat.inf else if a < 0 then PFloat.ninf else PFloat.nan
  | PFloat.num a, PFloat.ninf =>
    if 0 < a then PFloat.ninf else if a < 0 then PFloat.inf else PFloat.nan
  | PFloat.inf, PFloat.num b =>
    if 0 < b then PFloat.inf else if b < 0 then PFloat.ninf else PFloat.nan
  | PFloat.ninf, PFloat.num b =>
    if 0 < b then PFloat.ninf else if b < 0 then PFloat.inf else PFloat.nan
  | PFloat.inf, PFloat.inf => PFloat.inf
  | PFloat.inf, PFloat.ninf => PFloat.ninf
  | PFloat.ninf, PFloat.inf => PFloat.ninf
  | PFloat.ninf, PFloat.ninf => PFloat.inf

/-- IEEE-style division on Python floats as produced by numpy/pandas:
a nonzero finite number divided by zero is a signed infinity, zero divided
by zero is NaN (no exception is raised in vectorized pandas arithmetic). -/
def pDiv : PFloat → PFloat → PFloat
  | PFloat.nan, _ => PFloat.nan
  | _, PFloat.nan => PFloat.nan
  | PFloat.num a, PFloat.num b =>
    if b ≠ 0 then PFloat.num (a / b)
    else if 0 < a then PFloat.inf
    else if a < 0 then PFloat.ninf
    else PFloat.nan
  | PFloat.num _, PFloat.inf => PFloat.num 0
  | PFloat.num _, PFloat.ninf => PFloat.num 0
  | PFloat.inf, PFloat.num b => if b < 0 then PFloat.ninf else PFloat.inf
  | PFloat.ninf, PFloat.num b => if b < 0 then PFloat.inf else PFloat.ninf
  | PFloat.inf, PFloat.inf => PFloat.nan
  | PFloat.inf, PFloat.ninf => PFloat.nan
  | PFloat.ninf, PFloat.inf => PFloat.nan
  | PFloat.ninf, PFloat.ninf => PFloat.nan

/-- SQL comparison order on stored REAL values (stored values are never NaN
because binding converts NaN to NULL; NaN is placed lowest for totality). -/
def pfLe : PFloat → PFloat → Bool
  | PFloat.nan, _ => true
  | _, PFloat.nan => false
  | PFloat.ninf, _ => true
  | _, PFloat.ninf => false
  | PFloat.num a, PFloat.num b => decide (a ≤ b)
  | PFloat.num _, PFloat.inf => true
  | PFloat.inf, PFloat.num _ => false
  | PFloat.inf, PFloat.inf => true

/-- Binary minimum under `pfLe`, as used by the SQL `MIN` aggregate. -/
def pfMin (a b : PFloat) : PFloat :=
  if pfLe a b then a else b

/-- One stored row of the `highs` table (schema from `CREATE_TABLE_SQL`).
The seventeen pass-through columns (`bse_code` … `down_from_52w_high`) are
copied verbatim from the extract by `row.get` and never inspected by the
core logic; they are bundled as `others`.  `market_cap` and
`first_market_cap` are REAL columns and hence NULLable (`Option PFloat`);
`date` is always populated, and `first_seen_date` is always populated
because the fallback in the source fills it with the load date. -/
structure Row where
  date : ℤ
  name : Cell
  marketCap : Option PFloat
  firstSeenDate : ℤ
  firstMarketCap : Option PFloat
  others : List Cell
deriving DecidableEq

/-- One row of the downloaded extract, after `pd.read_csv`: the `Name` and
`Market Capitalization` cells the loop reads, plus the pass-through cells. -/
structure ExtractRow where
  name : Cell
  marketCap : Cell
  others : List Cell
deriving DecidableEq

/-- A downloaded extract: raw column headers (possibly carrying incidental
whitespace, stripped by `df.columns.str.strip()`) and the data rows. -/
structure Extract where
  headers : List String
  rows : List ExtractRow
deriving DecidableEq

/-- Outcome of one `_ingest_file` call: either the early return taken when a
required column is absent after header trimming (the source logs the
"missing … — skipped" warning and returns normally, raising nothing), or
normal completion with the count of inserted rows. -/
inductive IngestResult where
  | schemaMismatch : IngestResult
  | ok : ℕ → IngestResult
deriving DecidableEq

/-- Rows of the store whose `name` column equals `c`
(SQL `WHERE name = ?`). -/
def rowsNamed (db : List Row) (c : Cell) : List Row :=
  db.filter (fun r => decide (r.name = c))

/-- One accumulation step of the SQL `MIN(date)` aggregate. -/
def minDateStep (acc : Option ℤ) (r : Row) : Option ℤ :=
  match acc with
  | none => some r.date
  | some d => some (min d r.date)

/-- SQL `MIN(date)` over a row set: NULL on the empty set, else the least
date (dates are ISO text on disk, whose order is the calendar order). -/
def minDate (rows : List Row) : Option ℤ :=
  rows.foldl minDateStep none

/-- One accumulation step of the SQL `MIN(market_cap)` aggregate: NULL
values are ignored. -/
def minMcapStep (acc : Option PFloat) (r : Row) : Option PFloat :=
  match r.marketCap with
  | none => acc
  | some v =>
    match acc with
    | none => some v
    | some w => some (pfMin w v)

/-- SQL `MIN(market_cap)` over a row set: NULL values are ignored by the
aggregate; NULL results when no non-NULL value exists. -/
def minMcap (rows : List Row) : Option PFloat :=
  rows.foldl minMcapStep none

/-- Builds the row inserted for one valid extract row, embedding lines
269–300 of `highs_pipeline.py`: the `SELECT MIN(date), MIN(market_cap) FROM
highs WHERE name = ?` lookup against the current connection state, the
`if first_seen_date is None` fallback to the load date and the row's own
market cap, and the `INSERT INTO highs VALUES …` append.  `mcap` is the
already-parsed Python float; binding converts NaN to NULL. -/
def insertedRow (loadDate : ℤ) (db : List Row) (r : ExtractRow) (mcap : PFloat) : Row :=
  let prior := rowsNamed db r.name
  match minDate prior with
  | none =>
    { date := loadDate, name := r.name, marketCap := bindReal mcap
      firstSeenDate := loadDate, firstMarketCap := bindReal mcap
      others := r.others }
  | some d =>
    { date := loadDate, name := r.name, marketCap := bindReal mcap
      firstSeenDate := d, firstMarketCap := minMcap prior
      others := r.others }

/-- The valid-row test of the ingestion loop: the row is processed (not
`continue`d over) exactly when `pd.isna(name)` is false and
`float(row["Market Capitalization"])` does not raise. -/
def validRow (r : ExtractRow) : Bool :=
  !pdIsna r.name && (pyFloat r.marketCap).isSome

/-- The per-row ingestion loop of `_ingest_file` (`for _, row in
df.iterrows()`), threading the connection state: skips NA names, skips
unparseable market caps, and otherwise appends `insertedRow` (inserts made
earlier in the same call are visible to the first-seen query because they
run on the same uncommitted connection).  Returns the final store and the
`inserted_rows` counter. -/
def ingestRows (loadDate : ℤ) : List Row → List ExtractRow → List Row × ℕ
  | db, [] => (db, 0)
  | db, r :: rs =>
    if pdIsna r.name then ingestRows loadDate db rs
    else
      match pyFloat r.marketCap with
      | none => ingestRows loadDate db rs
      | some mcap =>
        let step := ingestRows loadDate (db ++ [insertedRow loadDate db r mcap]) rs
        (step.1, step.2 + 1)

/-- The rows appended by `ingestRows loadDate db rows` (the suffix the call
adds to the store), defined by the same recursion. -/
def newRowsOf (loadDate : ℤ) : List Row → List ExtractRow → List Row
  | _, [] => []
  | db, r :: rs =>
    if pdIsna r.name then newRowsOf loadDate db rs
    else
      match pyFloat r.marketCap with
      | none => newRowsOf loadDate db rs
      | some mcap =>
        let nr := insertedRow loadDate db r mcap
        nr :: newRowsOf loadDate (db ++ [nr]) rs

/-- Embedding of `HighsIngestor._ingest_file` on one extract: strips the
column headers, rejects the whole extract (store untouched, early return
with the logged warning — the `schemaMismatch` outcome) when `{"Name",
"Market Capitalization"}` is not a subset of the trimmed headers, and
otherwise runs the row loop and reports the inserted count. -/
def ingestFile (db : List Row) (e : Extract) (loadDate : ℤ) : List Row × IngestResult :=
  let headers := e.headers.map stripStr
  if "Name" ∈ headers ∧ "Market Capitalization" ∈ headers then
    let p := ingestRows loadDate db e.rows
    (p.1, IngestResult.ok p.2)
  else
    (db, IngestResult.schemaMismatch)

/-- The `COUNT(*)` of one company's rows matched by the hit-count query of
`get_momentum_summary._hit_counts`: `WHERE date >= ?` with the parameter
`today - datetime.timedelta(days=days)` — an inclusive lower bound and no
upper bound. -/
def hitCount (db : List Row) (today days : ℤ) (c : Cell) : ℕ :=
  (db.filter (fun r => decide (r.name = c) && decide (today - days ≤ r.date))).length

/-- Left-join semantics of `df.join(counts)` on the grouped count: a company
appears in the `GROUP BY name` result exactly when at least one of its rows
matched, so a zero count surfaces as a missing value (NaN), not as 0. -/
def optCount (n : ℕ) : Option ℕ :=
  if n = 0 then none else some n

/-- Whether `r` is picked by the latest-snapshot query of
`get_momentum_summary` (the self-join on `name` with `MAX(date)`): `r`'s
date is the maximum over the store among rows of the same name. -/
def isLatest (db : List Row) (r : Row) : Bool :=
  db.all (fun s => !decide (s.name = r.name) || decide (s.date ≤ r.date))

/-- The latest-snapshot row set of `get_momentum_summary` (all rows tied at
the per-name maximal date are returned by the SQL join). -/
def latestRows (db : List Row) : List Row :=
  db.filter (isLatest db)

/-- The pandas expression `100 * (market_cap - first_market_cap) /
first_market_cap` from `get_momentum_summary`, evaluated on one latest row
after NULLs are read back as NaN. -/
def gainOf (r : Row) : PFloat :=
  pDiv
    (pMul (PFloat.num 100) (pSub (unSQL r.marketCap) (unSQL r.firstMarketCap)))
    (unSQL r.firstMarketCap)

/-- One row of the momentum-summary output: the latest snapshot's columns
kept by `get_momentum_summary`, the `%_gain_mc` column, and the three
joined hit-count columns (missing when the company had no row in the
corresponding window). -/
structure SummaryRow where
  name : Cell
  marketCap : PFloat
  firstMarketCap : PFloat
  firstSeenDate : ℤ
  gainMc : PFloat
  hits7 : Option ℕ
  hits30 : Option ℕ
  hits60 : Option ℕ
deriving DecidableEq

/-- Builds the summary row derived from one latest snapshot `r`. -/
def mkSummaryRow (db : List Row) (today : ℤ) (r : Row) : SummaryRow :=
  { name := r.name
    marketCap := unSQL r.marketCap
    firstMarketCap := unSQL r.firstMarketCap
    firstSeenDate := r.firstSeenDate
    gainMc := gainOf r
    hits7 := optCount (hitCount db today 7 r.name)
    hits30 := optCount (hitCount db today 30 r.name)
    hits60 := optCount (hitCount db today 60 r.name) }

/-- Embedding of `db_utils.get_momentum_summary` over the store contents and
the value of `datetime.date.today()`: one output row per latest snapshot,
carrying the percent-gain column and the three left-joined hit counts. -/
def getMomentumSummary (db : List Row) (today : ℤ) : List SummaryRow :=
  (latestRows db).map (mkSummaryRow db today)

/-- Rows of the store observed on date `d`
(`SELECT * FROM highs WHERE date = ?`, in stored order). -/
def rowsForDate (db : List Row) (d : ℤ) : List Row :=
  db.filter (fun r => decide (r.date = d))

/-- Inserts a date into an ascending duplicate-free date list, keeping it
ascending and duplicate-free. -/
def insertDate (d : ℤ) : List ℤ → List ℤ
  | [] => [d]
  | x :: xs =>
    if d < x then d :: x :: xs
    else if d = x then x :: xs
    else x :: insertDate d xs

/-- The distinct dates present in the store, ascending
(`SELECT DISTINCT date FROM highs ORDER BY date`, via `get_all_dates`). -/
def distinctDates (db : List Row) : List ℤ :=
  db.foldl (fun acc r => insertDate r.date acc) []

/-- pandas `drop_duplicates(subset=['name'])` with the default keep-first
policy: keeps each row whose name has not occurred earlier in the list,
tracking the set of names already seen. -/
def dropDupByName (seen : List Cell) : List Row → List Row
  | [] => []
  | r :: rs =>
    if r.name ∈ seen then dropDupByName seen rs
    else r :: dropDupByName (r.name :: seen) rs

/-- Embedding of the Date Range branch of `views/daily_viewer.py` `main`
(lines 96–105): iterate the store's distinct dates in ascending order, keep
those inside `[start, stop]`, concatenate `get_data_for_date` over them
(`pd.concat`), then collapse duplicate names keeping the first encountered
row (`drop_duplicates(subset=['name'])`). -/
def rowsForDateRange (db : List Row) (start stop : ℤ) : List Row :=
  dropDupByName []
    ((((distinctDates db).filter (fun d => decide (start ≤ d) && decide (d ≤ stop))).map
      (rowsForDate db)).flatten)

/-- The default "NA strings" of `pd.read_csv` that matter here: an empty
field (or an absent one) is read as NaN, as are the standard textual NA
markers.  Only the empty-string case is exercised by the claims. -/
def naStrings : List String :=
  ["", "NA", "N/A", "NaN", "nan", "null", "NULL"]

/-- Models how `pd.read_csv` turns one raw CSV field into a cell: a missing
field or an NA-marker string becomes NaN; a field that parses as a decimal
number becomes numeric; anything else stays a string. -/
def readCsvCell : Option String → Cell
  | none => Cell.na
  | some s =>
    if s ∈ naStrings then Cell.na
    else
      match parsePyFloat s with
      | some (PFloat.num q) => Cell.num q
      | _ => Cell.str s

/-- The parsed market caps of the rows of an extract that carry name `c`
and a numeric market cap, in extract order. -/
def capsOf (c : Cell) (rows : List ExtractRow) : List ℚ :=
  rows.filterMap
    (fun r =>
      if r.name = c then
        match pyFloat r.marketCap with
        | some (PFloat.num q) => some q
        | _ => none
      else none)

/-- The claim-relevant projection of a stored row: its observation date,
market cap, first-seen date and first-seen market cap. -/
def rowCore (r : Row) : ℤ × Option PFloat × ℤ × Option PFloat :=
  (r.date, r.marketCap, r.firstSeenDate, r.firstMarketCap)

/-- Expected cores of the rows inserted for the second and later occurrences
of one company inside a single ingestion call, given the running minimum `m`
of the market caps of the earlier occurrences: each occurrence is stored
with the call's load date as observation and first-seen date, its own cap,
and the minimum of the earlier caps as first-seen market cap. -/
def dupTrace (d : ℤ) : ℚ → List ℚ → List (ℤ × Option PFloat × ℤ × Option PFloat)
  | _, [] => []
  | m, q :: qs =>
    (d, some (PFloat.num q), d, some (PFloat.num m)) :: dupTrace d (min m q) qs

/-- The required header pair, as downloaded (no incidental whitespace). -/
def reqHeaders : List String :=
  ["Name", "Market Capitalization"]

/-- An extract in which company D appears three times with market caps
9, 4 and 6. -/
def dupExtract : Extract :=
  ⟨reqHeaders,
    [⟨Cell.str "D", Cell.num 9, []⟩,
      ⟨Cell.str "D", Cell.num 4, []⟩,
      ⟨Cell.str "D", Cell.num 6, []⟩]⟩

/-- A one-company store built by three in-date-order ingestion calls:
Acme with market cap 100 on day 1, cap 50 on day 2, cap 80 on day 3. -/
def acmeStore : List Row :=
  (ingestFile
    (ingestFile
      (ingestFile [] ⟨reqHeaders, [⟨Cell.str "Acme", Cell.num 100, []⟩]⟩ 1).1
      ⟨reqHeaders, [⟨Cell.str "Acme", Cell.num 50, []⟩]⟩ 2).1
    ⟨reqHeaders, [⟨Cell.str "Acme", Cell.num 80, []⟩]⟩ 3).1

/-- An extract with both required columns whose single row has a present
name and a missing (NA) market capitalization. -/
def naCapExtract : Extract :=
  ⟨reqHeaders, [⟨Cell.str "Acme", Cell.na, []⟩]⟩

/-- A stored row whose first-seen market cap is zero while its own market
cap is positive. -/
def zeroBaseRow : Row :=
  ⟨1, Cell.str "Acme", some (PFloat.num 1), 1, some (PFloat.num 0), []⟩

/-- A stored row dated one day after the summary's "today" (day 0). -/
def futureRow : Row :=
  ⟨1, Cell.str "Acme", some (PFloat.num 10), 1, some (PFloat.num 10), []⟩

/-- A stored row dated 70 days before the summary's "today" (day 0),
outside all three trailing windows. -/
def staleRow : Row :=
  ⟨-70, Cell.str "Acme", some (PFloat.num 10), -70, some (PFloat.num 10), []⟩

theorem ingestRows_eq (loadDate : ℤ) (rows : List ExtractRow) :
    ∀ db : List Row,
      ingestRows loadDate db rows
        = (db ++ newRowsOf loadDate db rows, (newRowsOf loadDate db rows).length) := by
  induction rows with
  | nil => intro db; simp [ingestRows, newRowsOf]
  | cons r rs ih =>
    intro db
    by_cases hna : pdIsna r.name
    · simp [ingestRows, newRowsOf, hna, ih db]
    · cases hmc : pyFloat r.marketCap with
      | none => simp [ingestRows, newRowsOf, hna, hmc, ih db]
      | some mcap =>
        simp only [ingestRows, newRowsOf, hna, hmc, ih (db ++ [insertedRow loadDate db r mcap])]
        simp [List.append_assoc, Nat.add_comm]

theorem newRowsOf_length (loadDate : ℤ) (rows : List ExtractRow) :
    ∀ db : List Row,
      (newRowsOf loadDate db rows).length = (rows.filter validRow).length := by
  induction rows with
  | nil => intro db; simp [newRowsOf]
  | cons r rs ih =>
    intro db
    by_cases hna : pdIsna r.name
    · simp [newRowsOf, List.filter, validRow, hna, ih db]
    · cases hmc : pyFloat r.marketCap with
      | none => simp [newRowsOf, List.filter, validRow, hna, hmc, ih db]
      | some mcap =>
        simp [newRowsOf, List.filter, validRow, hna, hmc,
          ih (db ++ [insertedRow loadDate db r mcap])]

/-- C2.  If, after whitespace-trimming the headers, the company-name column
or the market-capitalization column is absent, the ingestion call leaves the
store unchanged, inserts zero rows, and exits through the named
schema-mismatch outcome (the logged early return) rather than raising a
fatal error. -/
theorem C2_schema_mismatch (db : List Row) (e : Extract) (loadDate : ℤ)
    (h : ¬("Name" ∈ e.headers.map stripStr ∧
        "Market Capitalization" ∈ e.headers.map stripStr)) :
    ingestFile db e loadDate = (db, IngestResult.schemaMismatch) := by
  simp only [ingestFile, if_neg h]

/-- Witness for C2 at a concrete extract lacking the market-capitalization
column. -/
theorem C2_schema_mismatch_witness :
    ¬("Name" ∈ (["Name", "Industry"].map stripStr) ∧
        "Market Capitalization" ∈ (["Name", "Industry"].map stripStr)) ∧
      ingestFile [] ⟨["Name", "Industry"], [⟨Cell.str "Acme", Cell.num 5, []⟩]⟩ 1
        = ([], IngestResult.schemaMismatch) :=
  ⟨by decide, C2_schema_mismatch [] ⟨["Name", "Industry"], [⟨Cell.str "Acme", Cell.num 5, []⟩]⟩ 1
    (by decide)⟩

/-- C6.  When both required columns are present, one ingestion call appends
exactly the rows built for the valid extract rows — those passing the
NA-name check and the market-cap `float` parse — to the end of the store:
the result is the old store followed by the new rows, the reported count is
the number of valid rows, and no previously existing row is modified or
deleted (the old store is kept verbatim as a prefix). -/
theorem C6_append_only (db : List Row) (e : Extract) (loadDate : ℤ)
    (h : "Name" ∈ e.headers.map stripStr ∧
        "Market Capitalization" ∈ e.headers.map stripStr) :
    (ingestFile db e loadDate).1 = db ++ newRowsOf loadDate db e.rows ∧
      (ingestFile db e loadDate).2 = IngestResult.ok ((e.rows.filter validRow).length) ∧
      (ingestFile db e loadDate).1.length = db.length + (e.rows.filter validRow).length := by
  have hrec := ingestRows_eq loadDate e.rows db
  have hlen := newRowsOf_length loadDate e.rows db
  have hmain : ingestFile db e loadDate
      = (db ++ newRowsOf loadDate db e.rows,
          IngestResult.ok (newRowsOf loadDate db e.rows).length) := by
    simp only [ingestFile]
    rw [if_pos h, hrec]
  refine ⟨?_, ?_, ?_⟩ <;> simp [hmain, hlen]

/-- Witness for C6 at a two-row extract with one valid and one invalid row
over a one-row store. -/
theorem C6_append_only_witness :
    ("Name" ∈ (reqHeaders.map stripStr) ∧
        "Market Capitalization" ∈ (reqHeaders.map stripStr)) ∧
      ((ingestFile [zeroBaseRow]
            ⟨reqHeaders, [⟨Cell.str "B", Cell.num 3, []⟩, ⟨Cell.na, Cell.num 4, []⟩]⟩ 2).1
          = [zeroBaseRow] ++ newRowsOf 2 [zeroBaseRow]
              [⟨Cell.str "B", Cell.num 3, []⟩, ⟨Cell.na, Cell.num 4, []⟩] ∧
        (ingestFile [zeroBaseRow]
            ⟨reqHeaders, [⟨Cell.str "B", Cell.num 3, []⟩, ⟨Cell.na, Cell.num 4, []⟩]⟩ 2).2
          = IngestResult.ok
              (([⟨Cell.str "B", Cell.num 3, []⟩,
                  (⟨Cell.na, Cell.num 4, []⟩ : ExtractRow)].filter validRow).length) ∧
        (ingestFile [zeroBaseRow]
            ⟨reqHeaders, [⟨Cell.str "B", Cell.num 3, []⟩, ⟨Cell.na, Cell.num 4, []⟩]⟩ 2).1.length
          = [zeroBaseRow].length
            + (([⟨Cell.str "B", Cell.num 3, []⟩,
                (⟨Cell.na, Cell.num 4, []⟩ : ExtractRow)].filter validRow).length)) :=
  ⟨by decide, C6_append_only [zeroBaseRow]
    ⟨reqHeaders, [⟨Cell.str "B", Cell.num 3, []⟩, ⟨Cell.na, Cell.num 4, []⟩]⟩ 2 (by decide)⟩

/-- C1.  Evaluation of the ingestion code on the failing input behind the
first-seen claim: Acme is ingested in ascending date order with market caps
100 (day 1), 50 (day 2), 80 (day 3).  The market cap recorded on the
minimum ingested date is 100, yet the day-3 row stores first-seen market
cap 50, because the source's `SELECT MIN(date), MIN(market_cap)` takes the
minimum market cap over all prior rows rather than the cap recorded on the
minimum date; the rows for a fixed company therefore do not all carry an
identical first-seen market cap. -/
theorem C1_first_seen_market_cap_bug :
    acmeStore.map rowCore
        = [(1, some (PFloat.num 100), 1, some (PFloat.num 100)),
           (2, some (PFloat.num 50), 1, some (PFloat.num 100)),
           (3, some (PFloat.num 80), 1, some (PFloat.num 50))] ∧
      ¬∀ r ∈ acmeStore, r.firstMarketCap = some (PFloat.num 100) := by
  constructor
  · decide
  · decide

/-- C4, counterexample to the claim as stated: an extract row whose
market-capitalization cell is missing is NOT skipped — `float(nan)`
succeeds, so the row is inserted (with a NULL market cap), and the call
reports one inserted row where the claim requires zero. -/
theorem C4_missing_cap_inserted :
    ingestFile [] naCapExtract 5
      = ([⟨5, Cell.str "Acme", none, 5, none, []⟩], IngestResult.ok 1) := by
  decide

/-- C4 as amended: a row whose market-cap cell fails the `float` parse (an
unparseable string or a non-numeric object) is skipped — the loop continues
with the remaining rows and nothing is inserted for it; a row whose
market-cap cell is missing, however, parses to the float NaN and IS
inserted, with its stored market cap NULL (unknown) — in particular never
zero and never any finite placeholder number. -/
theorem C4_parse_failure_skips (loadDate : ℤ) (db : List Row) (r : ExtractRow)
    (rs : List ExtractRow) (hname : pdIsna r.name = false) :
    (pyFloat r.marketCap = none →
      ingestRows loadDate db (r :: rs) = ingestRows loadDate db rs) ∧
    (r.marketCap = Cell.na →
      ingestRows loadDate db (r :: rs)
        = ((ingestRows loadDate (db ++ [insertedRow loadDate db r PFloat.nan]) rs).1,
            (ingestRows loadDate (db ++ [insertedRow loadDate db r PFloat.nan]) rs).2 + 1) ∧
      (insertedRow loadDate db r PFloat.nan).marketCap = none ∧
      ∀ q : ℚ, (insertedRow loadDate db r PFloat.nan).marketCap ≠ some (PFloat.num q)) := by
  constructor
  · intro hmc
    simp [ingestRows, hname, hmc]
  · intro hna
    refine ⟨?_, ?_, ?_⟩
    · simp [ingestRows, hname, hna, pyFloat]
    · cases hmd : minDate (rowsNamed db r.name) <;> simp [insertedRow, hmd, bindReal]
    · intro q
      cases hmd : minDate (rowsNamed db r.name) <;> simp [insertedRow, hmd, bindReal]

/-- Witness for C4 at a concrete row with a present name and a missing
market cap, over the empty store. -/
theorem C4_parse_failure_skips_witness :
    pdIsna (Cell.str "Acme") = false ∧
      ((pyFloat (Cell.na) = none →
          ingestRows 5 [] [(⟨Cell.str "Acme", Cell.na, []⟩ : ExtractRow)] = ingestRows 5 [] []) ∧
        ((⟨Cell.str "Acme", Cell.na, []⟩ : ExtractRow).marketCap = Cell.na →
          ingestRows 5 [] [(⟨Cell.str "Acme", Cell.na, []⟩ : ExtractRow)]
            = ((ingestRows 5 ([] ++ [insertedRow 5 [] ⟨Cell.str "Acme", Cell.na, []⟩ PFloat.nan]) []).1,
                (ingestRows 5 ([] ++ [insertedRow 5 [] ⟨Cell.str "Acme", Cell.na, []⟩ PFloat.nan]) []).2 + 1) ∧
          (insertedRow 5 [] ⟨Cell.str "Acme", Cell.na, []⟩ PFloat.nan).marketCap = none ∧
          ∀ q : ℚ,
            (insertedRow 5 [] ⟨Cell.str "Acme", Cell.na, []⟩ PFloat.nan).marketCap
              ≠ some (PFloat.num q))) :=
  ⟨by decide, C4_parse_failure_skips 5 [] ⟨Cell.str "Acme", Cell.na, []⟩ [] (by decide)⟩

/-- C8.  A row whose company-name cell is missing is skipped by the
`pd.isna` check — nothing is inserted for it and ingestion continues with
the remaining rows; and both a missing CSV field and an empty-string CSV
field surface as the missing cell under pandas CSV reading, so rows whose
name field is absent or empty are skipped. -/
theorem C8_missing_name_skipped (loadDate : ℤ) (db : List Row) (r : ExtractRow)
    (rs : List ExtractRow) (hname : r.name = Cell.na) :
    ingestRows loadDate db (r :: rs) = ingestRows loadDate db rs ∧
      newRowsOf loadDate db (r :: rs) = newRowsOf loadDate db rs ∧
      readCsvCell none = Cell.na ∧ readCsvCell (some "") = Cell.na := by
  refine ⟨?_, ?_, rfl, by decide⟩
  · simp [ingestRows, hname, pdIsna]
  · simp [newRowsOf, hname, pdIsna]

/-- Witness for C8 at a concrete NA-named row over a one-row store. -/
theorem C8_missing_name_skipped_witness :
    (⟨Cell.na, Cell.num 4, []⟩ : ExtractRow).name = Cell.na ∧
      (ingestRows 2 [zeroBaseRow] [(⟨Cell.na, Cell.num 4, []⟩ : ExtractRow)]
          = ingestRows 2 [zeroBaseRow] [] ∧
        newRowsOf 2 [zeroBaseRow] [(⟨Cell.na, Cell.num 4, []⟩ : ExtractRow)]
          = newRowsOf 2 [zeroBaseRow] [] ∧
        readCsvCell none = Cell.na ∧ readCsvCell (some "") = Cell.na) :=
  ⟨rfl, C8_missing_name_skipped 2 [zeroBaseRow] ⟨Cell.na, Cell.num 4, []⟩ [] rfl⟩

theorem mem_summary (db : List Row) (today : ℤ) (s : SummaryRow)
    (hs : s ∈ getMomentumSummary db today) :
    ∃ r ∈ latestRows db, s = mkSummaryRow db today r := by
  obtain ⟨r, hr, hrs⟩ := List.mem_map.1 hs
  exact ⟨r, hr, hrs.symm⟩

/-- C3, counterexample to the claim as stated: a company whose first-seen
market cap is zero and whose latest market cap is positive gets `+inf` as
its percent gain (pandas division), not an unknown value. -/
theorem C3_zero_baseline_gives_inf :
    (getMomentumSummary [zeroBaseRow] 1).map SummaryRow.gainMc = [PFloat.inf] ∧
      PFloat.inf ≠ PFloat.nan := by
  constructor
  · simp [getMomentumSummary, latestRows, isLatest, mkSummaryRow, gainOf, unSQL,
      zeroBaseRow, pSub, pMul, pDiv]
  · decide

/-- C3 as amended: every summary row's gain column is the pandas expression
`100 * (market_cap - first_market_cap) / first_market_cap` evaluated with
IEEE float semantics — no crash is possible (the expression is total), an
unknown (NaN) baseline or latest cap propagates to an unknown gain, but a
zero baseline with a nonzero latest cap yields a signed infinity rather
than an unknown value, and a zero baseline with a zero latest cap yields
NaN. -/
theorem C3_gain_formula (db : List Row) (today : ℤ) (s : SummaryRow)
    (hs : s ∈ getMomentumSummary db today) :
    s.gainMc
        = pDiv (pMul (PFloat.num 100) (pSub s.marketCap s.firstMarketCap)) s.firstMarketCap ∧
      (s.firstMarketCap = PFloat.nan → s.gainMc = PFloat.nan) ∧
      (s.marketCap = PFloat.nan → s.gainMc = PFloat.nan) ∧
      (∀ q : ℚ, s.firstMarketCap = PFloat.num 0 → s.marketCap = PFloat.num q → 0 < q →
        s.gainMc = PFloat.inf) ∧
      (∀ q : ℚ, s.firstMarketCap = PFloat.num 0 → s.marketCap = PFloat.num q → q < 0 →
        s.gainMc = PFloat.ninf) ∧
      (s.firstMarketCap = PFloat.num 0 → s.marketCap = PFloat.num 0 →
        s.gainMc = PFloat.nan) := by
  obtain ⟨r, hr, rfl⟩ := mem_summary db today s hs
  refine ⟨rfl, ?_, ?_, ?_, ?_, ?_⟩
  · intro h
    simp only [mkSummaryRow, gainOf] at h ⊢
    rw [h]
    cases unSQL r.marketCap <;> simp [pSub, pMul, pDiv]
  · intro h
    simp only [mkSummaryRow, gainOf] at h ⊢
    rw [h]
    cases unSQL r.firstMarketCap <;> simp [pSub, pMul, pDiv]
  · intro q h1 h2 hq
    simp only [mkSummaryRow, gainOf] at h1 h2 ⊢
    rw [h1, h2]
    have h100 : (0 : ℚ) < 100 * (q - 0) := by
      rw [sub_zero]
      exact mul_pos (by norm_num) hq
    simp only [pSub, pMul, pDiv]
    rw [if_neg (by simp), if_pos h100]
  · intro q h1 h2 hq
    simp only [mkSummaryRow, gainOf] at h1 h2 ⊢
    rw [h1, h2]
    have h100 : 100 * (q - 0) < (0 : ℚ) := by
      rw [sub_zero]
      exact mul_neg_of_pos_of_neg (by norm_num) hq
    simp only [pSub, pMul, pDiv]
    rw [if_neg (by simp), if_neg (by linarith), if_pos h100]
  · intro h1 h2
    simp only [mkSummaryRow, gainOf] at h1 h2 ⊢
    rw [h1, h2]
    norm_num [pSub, pMul, pDiv]

/-- Witness for C3 at a one-row store whose baseline is unknown (NULL). -/
theorem C3_gain_formula_witness :
    (⟨0, Cell.str "B", some (PFloat.num 3), 0, none, []⟩ : Row) ∈ [(⟨0, Cell.str "B", some (PFloat.num 3), 0, none, []⟩ : Row)] ∧
      (mkSummaryRow [(⟨0, Cell.str "B", some (PFloat.num 3), 0, none, []⟩ : Row)] 0
          ⟨0, Cell.str "B", some (PFloat.num 3), 0, none, []⟩) ∈
        getMomentumSummary [(⟨0, Cell.str "B", some (PFloat.num 3), 0, none, []⟩ : Row)] 0 ∧
      (mkSummaryRow [(⟨0, Cell.str "B", some (PFloat.num 3), 0, none, []⟩ : Row)] 0
          ⟨0, Cell.str "B", some (PFloat.num 3), 0, none, []⟩).gainMc = PFloat.nan :=
  ⟨by decide, by decide,
    (C3_gain_formula [⟨0, Cell.str "B", some (PFloat.num 3), 0, none, []⟩] 0
        (mkSummaryRow [⟨0, Cell.str "B", some (PFloat.num 3), 0, none, []⟩] 0
          ⟨0, Cell.str "B", some (PFloat.num 3), 0, none, []⟩)
        (by decide)).2.1 (by decide)⟩

theorem length_filter_split {α : Type} (p q : α → Bool) (l : List α) :
    (l.filter p).length
      = (l.filter (fun a => p a && q a)).length
        + (l.filter (fun a => p a && !q a)).length := by
  induction l with
  | nil => simp
  | cons x xs ih =>
    by_cases hp : p x <;> by_cases hq : q x <;>
      simp [List.filter_cons, hp, hq, ih] <;> omega

/-- C5, counterexample to the claim as stated: a store holding a single row
dated one day after "today" yields `hits_7 = 1` (the query has no upper
date bound), while the count of rows in the claimed inclusive range
[today − 7, today] is 0. -/
theorem C5_future_row_counted :
    (getMomentumSummary [futureRow] 0).map SummaryRow.hits7 = [some 1] ∧
      ([futureRow].filter
          (fun r => decide ((0 : ℤ) - 7 ≤ r.date) && decide (r.date ≤ 0))).length = 0 := by
  decide

/-- C5 as amended: each summary row's `hits_N` (N in {7, 30, 60}) is the
left-joined count of the company's rows with `date ≥ today − N` — surfacing
as missing (NaN) rather than 0 when no row matches — and for every
nonnegative window this count splits into the rows inside the claimed
inclusive range [today − N, today] (so the boundary row dated exactly
today − N is counted) plus the rows dated strictly after today, which the
query also counts because it has no upper bound. -/
theorem C5_hit_window (db : List Row) (today : ℤ) (s : SummaryRow)
    (hs : s ∈ getMomentumSummary db today) :
    (s.hits7 = optCount (hitCount db today 7 s.name) ∧
      s.hits30 = optCount (hitCount db today 30 s.name) ∧
      s.hits60 = optCount (hitCount db today 60 s.name)) ∧
    ∀ days : ℤ, 0 ≤ days →
      hitCount db today days s.name
        = (db.filter (fun r =>
              (decide (r.name = s.name) && decide (today - days ≤ r.date))
                && decide (r.date ≤ today))).length
          + (db.filter (fun r =>
              decide (r.name = s.name) && decide (today < r.date))).length := by
  obtain ⟨r0, hr0, rfl⟩ := mem_summary db today s hs
  constructor
  · exact ⟨rfl, rfl, rfl⟩
  · intro days hdays
    have hsplit := length_filter_split
      (fun r => decide (r.name = (mkSummaryRow db today r0).name)
        && decide (today - days ≤ r.date))
      (fun r => decide (r.date ≤ today)) db
    have hcongr : db.filter (fun r =>
          (decide (r.name = (mkSummaryRow db today r0).name)
            && decide (today - days ≤ r.date)) && !decide (r.date ≤ today))
        = db.filter (fun r =>
            decide (r.name = (mkSummaryRow db today r0).name) && decide (today < r.date)) := by
      apply List.filter_congr
      intro a _
      by_cases h1 : a.name = (mkSummaryRow db today r0).name
      · by_cases h2 : a.date ≤ today
        · simp [h1, h2, show ¬today < a.date by omega]
        · simp [h1, h2, show today < a.date by omega,
            show today - days ≤ a.date by omega]
      · simp [h1]
    rw [hitCount, hsplit, hcongr]

/-- Witness for C5 at a two-row store with one in-window and one
future-dated row. -/
theorem C5_hit_window_witness :
    (mkSummaryRow [futureRow] 0 futureRow ∈ getMomentumSummary [futureRow] 0) ∧
      (0 : ℤ) ≤ 7 ∧
      hitCount [futureRow] 0 7 (mkSummaryRow [futureRow] 0 futureRow).name
        = ([futureRow].filter (fun r =>
              (decide (r.name = (mkSummaryRow [futureRow] 0 futureRow).name)
                && decide ((0 : ℤ) - 7 ≤ r.date))
                && decide (r.date ≤ (0 : ℤ)))).length
          + ([futureRow].filter (fun r =>
              decide (r.name = (mkSummaryRow [futureRow] 0 futureRow).name)
                && decide ((0 : ℤ) < r.date))).length :=
  ⟨List.mem_map_of_mem (mkSummaryRow [futureRow] 0)
      (show futureRow ∈ latestRows [futureRow] by decide),
    by decide,
    (C5_hit_window [futureRow] 0 (mkSummaryRow [futureRow] 0 futureRow)
        (List.mem_map_of_mem (mkSummaryRow [futureRow] 0)
          (show futureRow ∈ latestRows [futureRow] by decide))).2 7 (by decide)⟩

theorem hitCount_single (db : List Row) (today days : ℤ) (r : Row)
    (hone : db.filter (fun x => decide (x.name = r.name)) = [r]) :
    hitCount db today days r.name = if today - days ≤ r.date then 1 else 0 := by
  have hff : db.filter (fun x => decide (x.name = r.name) && decide (today - days ≤ x.date))
      = (db.filter (fun x => decide (x.name = r.name))).filter
          (fun x => decide (today - days ≤ x.date)) := by
    rw [List.filter_filter]
    exact List.filter_congr fun a _ => Bool.and_comm _ _
  rw [hitCount, hff, hone]
  by_cases h : today - days ≤ r.date
  · have hb : decide (today - days ≤ r.date) = true := decide_eq_true h
    rw [if_pos h]
    simp [List.filter_cons, hb]
    rw [if_pos (show today ≤ r.date + days by omega)]
    rfl
  · have hb : decide (today - days ≤ r.date) = false := decide_eq_false h
    rw [if_neg h]
    simp [List.filter_cons, hb]
    omega

theorem summary_filter_by_name (db : List Row) (today : ℤ) (nm : Cell) :
    ∀ l : List Row,
      (l.map (mkSummaryRow db today)).filter (fun s => decide (s.name = nm))
        = (l.filter (fun x => decide (x.name = nm))).map (mkSummaryRow db today) := by
  intro l
  induction l with
  | nil => rfl
  | cons x xs ih =>
    by_cases h : x.name = nm <;> simp [List.filter_cons, mkSummaryRow, h, ih]

theorem latest_filter_single (db : List Row) (r : Row)
    (hone : db.filter (fun x => decide (x.name = r.name)) = [r])
    (hlat : isLatest db r = true) :
    (latestRows db).filter (fun x => decide (x.name = r.name)) = [r] := by
  have h1 : List.filter (fun x => decide (x.name = r.name)) (latestRows db)
      = List.filter (fun x => isLatest db x) (db.filter (fun x => decide (x.name = r.name))) := by
    rw [latestRows, List.filter_filter, List.filter_filter]
    exact List.filter_congr fun a _ => Bool.and_comm _ _
  rw [h1, hone]
  simp [List.filter_cons, hlat]

/-- C7, counterexample to the claim as stated: a company whose only
snapshot is dated 70 days before "today" (outside all three windows) gets
missing (NaN) hit counts after the left join, not the claimed 0. -/
theorem C7_stale_company_has_no_counts :
    (getMomentumSummary [staleRow] 0).map (fun s => (s.hits7, s.hits30, s.hits60))
        = [(none, none, none)] ∧
      (none : Option ℕ) ≠ some 0 := by
  decide

/-- C7 as amended: for a company with exactly one stored snapshot, the
summary contains exactly one row for that company — the one derived from
its snapshot — and on that row each `hits_N` is `1` when the snapshot's
date is on or after `today − N` (there is no upper bound, so this includes
future-dated snapshots), and missing (NaN) — not 0 — otherwise. -/
theorem C7_single_snapshot (db : List Row) (today : ℤ) (r : Row)
    (hone : db.filter (fun x => decide (x.name = r.name)) = [r]) :
    ((getMomentumSummary db today).filter (fun s => decide (s.name = r.name))
        = [mkSummaryRow db today r]) ∧
      mkSummaryRow db today r ∈ getMomentumSummary db today ∧
      (mkSummaryRow db today r).hits7
        = (if today - 7 ≤ r.date then some 1 else none) ∧
      (mkSummaryRow db today r).hits30
        = (if today - 30 ≤ r.date then some 1 else none) ∧
      (mkSummaryRow db today r).hits60
        = (if today - 60 ≤ r.date then some 1 else none) := by
  have hrdb : r ∈ db := by
    have : r ∈ db.filter (fun x => decide (x.name = r.name)) := by
      rw [hone]; exact List.mem_singleton.2 rfl
    exact List.mem_of_mem_filter this
  have hlat : isLatest db r = true := by
    rw [isLatest, List.all_eq_true]
    intro s hsdb
    by_cases hn : s.name = r.name
    · have hsf : s ∈ db.filter (fun x => decide (x.name = r.name)) := by
        rw [List.mem_filter]
        exact ⟨hsdb, by simp [hn]⟩
      rw [hone, List.mem_singleton] at hsf
      simp [hsf]
    · simp [hn]
  have hmem : r ∈ latestRows db := by
    rw [latestRows, List.mem_filter]
    exact ⟨hrdb, hlat⟩
  refine ⟨?_, List.mem_map_of_mem (mkSummaryRow db today) hmem, ?_, ?_, ?_⟩
  · simp only [getMomentumSummary]
    rw [summary_filter_by_name db today r.name (latestRows db),
      latest_filter_single db r hone hlat]
    rfl
  · show optCount (hitCount db today 7 r.name) = _
    rw [hitCount_single db today 7 r hone]
    by_cases h : today - 7 ≤ r.date
    · rw [if_pos h, if_pos h]
      rfl
    · rw [if_neg h, if_neg h]
      rfl
  · show optCount (hitCount db today 30 r.name) = _
    rw [hitCount_single db today 30 r hone]
    by_cases h : today - 30 ≤ r.date
    · rw [if_pos h, if_pos h]
      rfl
    · rw [if_neg h, if_neg h]
      rfl
  · show optCount (hitCount db today 60 r.name) = _
    rw [hitCount_single db today 60 r hone]
    by_cases h : today - 60 ≤ r.date
    · rw [if_pos h, if_pos h]
      rfl
    · rw [if_neg h, if_neg h]
      rfl

/-- Witness for C7 at a one-row store whose snapshot is eight days old:
inside the 30- and 60-day windows, outside the 7-day window. -/
theorem C7_single_snapshot_witness :
    ([(⟨-8, Cell.str "Acme", some (PFloat.num 10), -8, some (PFloat.num 10), []⟩ : Row)].filter
        (fun x => decide (x.name = (⟨-8, Cell.str "Acme", some (PFloat.num 10), -8,
          some (PFloat.num 10), []⟩ : Row).name))
        = [(⟨-8, Cell.str "Acme", some (PFloat.num 10), -8, some (PFloat.num 10), []⟩ : Row)]) ∧
      (((getMomentumSummary
            [(⟨-8, Cell.str "Acme", some (PFloat.num 10), -8, some (PFloat.num 10), []⟩ : Row)] 0).filter
          (fun s => decide (s.name = (⟨-8, Cell.str "Acme", some (PFloat.num 10), -8,
            some (PFloat.num 10), []⟩ : Row).name))
          = [mkSummaryRow
              [(⟨-8, Cell.str "Acme", some (PFloat.num 10), -8, some (PFloat.num 10), []⟩ : Row)] 0
              ⟨-8, Cell.str "Acme", some (PFloat.num 10), -8, some (PFloat.num 10), []⟩]) ∧
        (mkSummaryRow [(⟨-8, Cell.str "Acme", some (PFloat.num 10), -8, some (PFloat.num 10), []⟩ : Row)] 0
          ⟨-8, Cell.str "Acme", some (PFloat.num 10), -8, some (PFloat.num 10), []⟩).hits7 = none ∧
        (mkSummaryRow [(⟨-8, Cell.str "Acme", some (PFloat.num 10), -8, some (PFloat.num 10), []⟩ : Row)] 0
          ⟨-8, Cell.str "Acme", some (PFloat.num 10), -8, some (PFloat.num 10), []⟩).hits30 = some 1) := by
  have h := C7_single_snapshot
    [(⟨-8, Cell.str "Acme", some (PFloat.num 10), -8, some (PFloat.num 10), []⟩ : Row)] 0
    ⟨-8, Cell.str "Acme", some (PFloat.num 10), -8, some (PFloat.num 10), []⟩ (by decide)
  exact ⟨by decide, h.1, by rw [h.2.2.1]; decide, by rw [h.2.2.2.1]; decide⟩

theorem insertDate_mem (d : ℤ) : ∀ (l : List ℤ) (x : ℤ),
    x ∈ insertDate d l ↔ x = d ∨ x ∈ l := by
  intro l
  induction l with
  | nil => intro x; simp [insertDate]
  | cons y ys ih =>
    intro x
    by_cases h1 : d < y
    · simp [insertDate, h1]
    · by_cases h2 : d = y
      · subst h2
        have he : insertDate d (d :: ys) = d :: ys := by
          simp [insertDate, h1]
        rw [he]
        simp only [List.mem_cons]
        tauto
      · simp only [insertDate, if_neg h1, if_neg h2, List.mem_cons, ih x]
        tauto

theorem insertDate_pairwise (d : ℤ) : ∀ l : List ℤ,
    l.Pairwise (· < ·) → (insertDate d l).Pairwise (· < ·) := by
  intro l
  induction l with
  | nil => intro _; simp [insertDate]
  | cons y ys ih =>
    intro hp
    rw [List.pairwise_cons] at hp
    obtain ⟨hy, hys⟩ := hp
    by_cases h1 : d < y
    · simp only [insertDate, if_pos h1]
      refine List.Pairwise.cons ?_ (List.Pairwise.cons hy hys)
      intro z hz
      rcases List.mem_cons.1 hz with rfl | hzz
      · exact h1
      · exact lt_trans h1 (hy z hzz)
    · by_cases h2 : d = y
      · subst h2
        simp only [insertDate, if_neg h1, if_pos rfl]
        exact List.Pairwise.cons hy hys
      · have h3 : y < d := by omega
        simp only [insertDate, if_neg h1, if_neg h2]
        refine List.Pairwise.cons ?_ (ih hys)
        intro z hz
        rcases (insertDate_mem d ys z).1 hz with rfl | hzz
        · exact h3
        · exact hy z hzz

theorem foldl_insertDate_spec : ∀ (rows : List Row) (acc : List ℤ),
    acc.Pairwise (· < ·) →
    ((rows.foldl (fun a r => insertDate r.date a) acc).Pairwise (· < ·) ∧
      ∀ x : ℤ, x ∈ rows.foldl (fun a r => insertDate r.date a) acc
        ↔ x ∈ acc ∨ ∃ r ∈ rows, r.date = x) := by
  intro rows
  induction rows with
  | nil => intro acc h; exact ⟨h, fun x => by simp⟩
  | cons r rs ih =>
    intro acc h
    have h2 := insertDate_pairwise r.date acc h
    obtain ⟨hp, hm⟩ := ih (insertDate r.date acc) h2
    refine ⟨hp, ?_⟩
    intro x
    rw [List.foldl_cons, hm x, insertDate_mem]
    simp only [List.mem_cons, exists_eq_or_imp]
    tauto

theorem dropDupByName_found (l : List Row) : ∀ (seen : List Cell) (r : Row),
    r ∈ dropDupByName seen l →
      r.name ∉ seen ∧ l.find? (fun s => decide (s.name = r.name)) = some r := by
  induction l with
  | nil => intro seen r h; simp [dropDupByName] at h
  | cons x xs ih =>
    intro seen r h
    by_cases hx : x.name ∈ seen
    · simp only [dropDupByName, if_pos hx] at h
      obtain ⟨h1, h2⟩ := ih seen r h
      refine ⟨h1, ?_⟩
      rw [List.find?_cons_of_neg, h2]
      simp only [decide_eq_true_eq]
      intro he
      exact h1 (he ▸ hx)
    · simp only [dropDupByName, if_neg hx] at h
      rcases List.mem_cons.1 h with rfl | htail
      · refine ⟨hx, ?_⟩
        rw [List.find?_cons_of_pos]
        simp
      · obtain ⟨h1, h2⟩ := ih (x.name :: seen) r htail
        have hne : x.name ≠ r.name := fun he => h1 (by simp [he])
        refine ⟨fun hs => h1 (List.mem_cons_of_mem _ hs), ?_⟩
        rw [List.find?_cons_of_neg, h2]
        simp only [decide_eq_true_eq]
        exact hne

theorem dropDupByName_nodup (l : List Row) : ∀ seen : List Cell,
    ((dropDupByName seen l).map Row.name).Nodup := by
  induction l with
  | nil => intro seen; simp [dropDupByName]
  | cons x xs ih =>
    intro seen
    by_cases hx : x.name ∈ seen
    · simp only [dropDupByName, if_pos hx]
      exact ih seen
    · simp only [dropDupByName, if_neg hx, List.map_cons]
      refine List.Nodup.cons ?_ (ih (x.name :: seen))
      intro hmem
      obtain ⟨r, hr, hrn⟩ := List.mem_map.1 hmem
      obtain ⟨h1, _⟩ := dropDupByName_found xs (x.name :: seen) r hr
      exact h1 (by simp [hrn])

theorem dropDupByName_covers (l : List Row) : ∀ (seen : List Cell) (x : Row),
    x ∈ l → x.name ∉ seen →
      ∃ r ∈ dropDupByName seen l, r.name = x.name := by
  induction l with
  | nil => intro seen x h; simp at h
  | cons y ys ih =>
    intro seen x hx hseen
    by_cases hy : y.name ∈ seen
    · simp only [dropDupByName, if_pos hy]
      rcases List.mem_cons.1 hx with rfl | hxs
      · exact absurd hy hseen
      · exact ih seen x hxs hseen
    · simp only [dropDupByName, if_neg hy]
      rcases List.mem_cons.1 hx with rfl | hxs
      · exact ⟨_, List.mem_cons_self _ _, rfl⟩
      · by_cases hsame : x.name = y.name
        · exact ⟨y, List.mem_cons_self y _, hsame.symm⟩
        · obtain ⟨r, hr, hrn⟩ := ih (y.name :: seen) x hxs
            (by simp [hsame, hseen])
          exact ⟨r, List.mem_cons_of_mem _ hr, hrn⟩

/-- C9.  For every date range, the Date Range view iterates the store's
distinct dates in ascending order (the list is strictly sorted and contains
exactly the dates present), concatenates the per-date row sets for the
dates inside the range, and collapses duplicate company names keeping the
first-encountered row: every returned row is the first row with its name
in the date-ascending concatenation, names are pairwise distinct (exactly
one row per company), and every company occurring in the range has a
representative row in the output. -/
theorem C9_date_range_dedup (db : List Row) (start stop : ℤ) :
    ((distinctDates db).Pairwise (· < ·) ∧
      (∀ x : ℤ, x ∈ distinctDates db ↔ ∃ r ∈ db, r.date = x)) ∧
    (∀ r ∈ rowsForDateRange db start stop,
      ((((distinctDates db).filter (fun d => decide (start ≤ d) && decide (d ≤ stop))).map
          (rowsForDate db)).flatten).find? (fun s => decide (s.name = r.name)) = some r) ∧
    ((rowsForDateRange db start stop).map Row.name).Nodup ∧
    (∀ x ∈ (((distinctDates db).filter (fun d => decide (start ≤ d) && decide (d ≤ stop))).map
        (rowsForDate db)).flatten,
      ∃ r ∈ rowsForDateRange db start stop, r.name = x.name) := by
  obtain ⟨hsort, hmem⟩ := foldl_insertDate_spec db [] (List.Pairwise.nil)
  refine ⟨⟨hsort, ?_⟩, ?_, ?_, ?_⟩
  · intro x
    rw [distinctDates, hmem x]
    simp
  · intro r hr
    exact (dropDupByName_found _ [] r hr).2
  · exact dropDupByName_nodup _ []
  · intro x hx
    exact dropDupByName_covers _ [] x hx (by simp)

/-- Witness for C9 at a three-row store: the day-2 duplicate of company A
is collapsed in favour of its day-1 row. -/
theorem C9_date_range_dedup_witness :
    (⟨1, Cell.str "A", some (PFloat.num 1), 1, some (PFloat.num 1), []⟩ : Row) ∈
        rowsForDateRange
          [⟨2, Cell.str "A", some (PFloat.num 3), 1, some (PFloat.num 1), []⟩,
            ⟨1, Cell.str "A", some (PFloat.num 1), 1, some (PFloat.num 1), []⟩,
            ⟨2, Cell.str "B", some (PFloat.num 2), 1, some (PFloat.num 1), []⟩] 1 2 ∧
      ((((distinctDates
            [⟨2, Cell.str "A", some (PFloat.num 3), 1, some (PFloat.num 1), []⟩,
              ⟨1, Cell.str "A", some (PFloat.num 1), 1, some (PFloat.num 1), []⟩,
              ⟨2, Cell.str "B", some (PFloat.num 2), 1, some (PFloat.num 1), []⟩]).filter
            (fun d => decide ((1 : ℤ) ≤ d) && decide (d ≤ (2 : ℤ)))).map
          (rowsForDate
            [⟨2, Cell.str "A", some (PFloat.num 3), 1, some (PFloat.num 1), []⟩,
              ⟨1, Cell.str "A", some (PFloat.num 1), 1, some (PFloat.num 1), []⟩,
              ⟨2, Cell.str "B", some (PFloat.num 2), 1, some (PFloat.num 1), []⟩])).flatten).find?
          (fun s => decide (s.name
            = (⟨1, Cell.str "A", some (PFloat.num 1), 1, some (PFloat.num 1), []⟩ : Row).name))
        = some ⟨1, Cell.str "A", some (PFloat.num 1), 1, some (PFloat.num 1), []⟩ :=
  ⟨by decide,
    (C9_date_range_dedup
        [⟨2, Cell.str "A", some (PFloat.num 3), 1, some (PFloat.num 1), []⟩,
          ⟨1, Cell.str "A", some (PFloat.num 1), 1, some (PFloat.num 1), []⟩,
          ⟨2, Cell.str "B", some (PFloat.num 2), 1, some (PFloat.num 1), []⟩] 1 2).2.1
      ⟨1, Cell.str "A", some (PFloat.num 1), 1, some (PFloat.num 1), []⟩ (by decide)⟩

theorem rowsNamed_append (db l : List Row) (c : Cell) :
    rowsNamed (db ++ l) c = rowsNamed db c ++ rowsNamed l c := by
  simp [rowsNamed, List.filter_append]

theorem rowsNamed_single_eq (nr : Row) (c : Cell) (h : nr.name = c) :
    rowsNamed [nr] c = [nr] := by
  simp [rowsNamed, h]

theorem rowsNamed_single_ne (nr : Row) (c : Cell) (h : ¬nr.name = c) :
    rowsNamed [nr] c = [] := by
  simp [rowsNamed, h]

theorem minDate_append_one (l : List Row) (r : Row) :
    minDate (l ++ [r]) = minDateStep (minDate l) r := by
  simp only [minDate, List.foldl_append, List.foldl_cons, List.foldl_nil]

theorem minMcap_append_one (l : List Row) (r : Row) :
    minMcap (l ++ [r]) = minMcapStep (minMcap l) r := by
  simp only [minMcap, List.foldl_append, List.foldl_cons, List.foldl_nil]

theorem pfMin_num (a b : ℚ) : pfMin (PFloat.num a) (PFloat.num b) = PFloat.num (min a b) := by
  simp only [pfMin, pfLe, min_def]
  by_cases h : a ≤ b <;> simp [h]

theorem dupTrace_length (d : ℤ) : ∀ (caps : List ℚ) (m : ℚ),
    (dupTrace d m caps).length = caps.length := by
  intro caps
  induction caps with
  | nil => intro m; rfl
  | cons q qs ih => intro m; simp [dupTrace, ih]

theorem dupTrace_getElem (d : ℤ) : ∀ (caps : List ℚ) (m : ℚ) (k : ℕ),
    (dupTrace d m caps)[k]?
      = (caps[k]?).map
          (fun q => (d, some (PFloat.num q), d, some (PFloat.num ((caps.take k).foldl min m)))) := by
  intro caps
  induction caps with
  | nil => intro m k; simp [dupTrace]
  | cons q qs ih =>
    intro m k
    cases k with
    | zero => simp [dupTrace]
    | succ n =>
      simp only [dupTrace, List.getElem?_cons_succ, List.take_succ_cons, List.foldl_cons]
      exact ih (min m q) n

theorem capsOf_cons_skip (c : Cell) (r : ExtractRow) (rs : List ExtractRow)
    (h : ¬r.name = c) :
    capsOf c (r :: rs) = capsOf c rs := by
  simp [capsOf, List.filterMap_cons, h]

theorem capsOf_cons_num (c : Cell) (r : ExtractRow) (rs : List ExtractRow) (q : ℚ)
    (h : r.name = c) (hq : pyFloat r.marketCap = some (PFloat.num q)) :
    capsOf c (r :: rs) = q :: capsOf c rs := by
  simp [capsOf, List.filterMap_cons, h, hq]

theorem ingest_dup_trace (c : Cell) (d : ℤ) (hc : pdIsna c = false) :
    ∀ (rows : List ExtractRow) (db : List Row) (m : ℚ),
      (∀ r ∈ rows, r.name = c → ∃ q : ℚ, pyFloat r.marketCap = some (PFloat.num q)) →
      minDate (rowsNamed db c) = some d →
      minMcap (rowsNamed db c) = some (PFloat.num m) →
      (rowsNamed (db ++ newRowsOf d db rows) c).map rowCore
        = (rowsNamed db c).map rowCore ++ dupTrace d m (capsOf c rows) := by
  intro rows
  induction rows with
  | nil =>
    intro db m hv h1 h2
    simp [newRowsOf, capsOf, dupTrace]
  | cons r rs ih =>
    intro db m hv h1 h2
    have hv' : ∀ r' ∈ rs, r'.name = c → ∃ q : ℚ, pyFloat r'.marketCap = some (PFloat.num q) :=
      fun r' hr' => hv r' (List.mem_cons_of_mem _ hr')
    by_cases hna : pdIsna r.name
    · have hrc : ¬r.name = c := by
        intro he
        rw [he, hc] at hna
        exact Bool.noConfusion hna
      rw [capsOf_cons_skip c r rs hrc]
      simp only [newRowsOf, if_pos hna]
      exact ih db m hv' h1 h2
    · rw [Bool.not_eq_true] at hna
      cases hmc : pyFloat r.marketCap with
      | none =>
        have hrc : ¬r.name = c := by
          intro he
          obtain ⟨q, hq⟩ := hv r (List.mem_cons_self r rs) he
          rw [hmc] at hq
          exact Option.noConfusion hq
        rw [capsOf_cons_skip c r rs hrc]
        simp only [newRowsOf, hna, Bool.false_eq_true, if_false, hmc]
        exact ih db m hv' h1 h2
      | some v =>
        by_cases hrc : r.name = c
        · obtain ⟨q, hq⟩ := hv r (List.mem_cons_self r rs) hrc
          rw [hmc] at hq
          obtain rfl : v = PFloat.num q := Option.some.inj hq
          rw [capsOf_cons_num c r rs q hrc hmc]
          simp only [newRowsOf, hna, Bool.false_eq_true, if_false, hmc]
          set nr := insertedRow d db r (PFloat.num q) with hnr
          have hnr_eq : nr
              = (⟨d, r.name, some (PFloat.num q), d, some (PFloat.num m), r.others⟩ : Row) := by
            rw [hnr, insertedRow]
            rw [hrc] at *
            rw [h1, h2]
            rfl
          have hname : nr.name = c := by rw [hnr_eq]; exact hrc
          have hdbc : rowsNamed (db ++ [nr]) c = rowsNamed db c ++ [nr] := by
            rw [rowsNamed_append, rowsNamed_single_eq nr c hname]
          have h1' : minDate (rowsNamed (db ++ [nr]) c) = some d := by
            rw [hdbc, minDate_append_one, h1, minDateStep, hnr_eq]
            simp
          have h2' : minMcap (rowsNamed (db ++ [nr]) c) = some (PFloat.num (min m q)) := by
            rw [hdbc, minMcap_append_one, minMcapStep, hnr_eq]
            simp only
            rw [h2]
            simp [pfMin_num]
          have hstep := ih (db ++ [nr]) (min m q) hv' h1' h2'
          have hassoc : db ++ nr :: newRowsOf d (db ++ [nr]) rs
              = (db ++ [nr]) ++ newRowsOf d (db ++ [nr]) rs := by
            simp [List.append_assoc]
          rw [hassoc, hstep, hdbc]
          simp only [List.map_append, List.map_cons, List.map_nil, List.append_assoc,
            List.singleton_append, dupTrace]
          have hcore : rowCore nr = (d, some (PFloat.num q), d, some (PFloat.num m)) := by
            rw [hnr_eq]; rfl
          rw [hcore]
        · simp only [newRowsOf, hna, Bool.false_eq_true, if_false, hmc]
          set nr := insertedRow d db r v with hnr
          have hname : ¬nr.name = c := by
            rw [hnr, insertedRow]
            cases hmd : minDate (rowsNamed db r.name) <;> simpa using hrc
          have hdbc : rowsNamed (db ++ [nr]) c = rowsNamed db c := by
            rw [rowsNamed_append, rowsNamed_single_ne nr c hname, List.append_nil]
          have hstep := ih (db ++ [nr]) m hv' (by rw [hdbc]; exact h1) (by rw [hdbc]; exact h2)
          have hassoc : db ++ nr :: newRowsOf d (db ++ [nr]) rs
              = (db ++ [nr]) ++ newRowsOf d (db ++ [nr]) rs := by
            simp [List.append_assoc]
          rw [capsOf_cons_skip c r rs hrc, hassoc, hstep, hdbc]

theorem ingest_first_trace (c : Cell) (d : ℤ) (hc : pdIsna c = false) :
    ∀ (rows : List ExtractRow) (db : List Row),
      (∀ r ∈ rows, r.name = c → ∃ q : ℚ, pyFloat r.marketCap = some (PFloat.num q)) →
      rowsNamed db c = [] →
      ∀ (q0 : ℚ) (caps : List ℚ), capsOf c rows = q0 :: caps →
      (rowsNamed (db ++ newRowsOf d db rows) c).map rowCore
        = (d, some (PFloat.num q0), d, some (PFloat.num q0)) :: dupTrace d q0 caps := by
  intro rows
  induction rows with
  | nil =>
    intro db hv hemp q0 caps hcaps
    simp [capsOf] at hcaps
  | cons r rs ih =>
    intro db hv hemp q0 caps hcaps
    have hv' : ∀ r' ∈ rs, r'.name = c → ∃ q : ℚ, pyFloat r'.marketCap = some (PFloat.num q) :=
      fun r' hr' => hv r' (List.mem_cons_of_mem _ hr')
    by_cases hna : pdIsna r.name
    · have hrc : ¬r.name = c := by
        intro he
        rw [he, hc] at hna
        exact Bool.noConfusion hna
      rw [capsOf_cons_skip c r rs hrc] at hcaps
      simp only [newRowsOf, if_pos hna]
      exact ih db hv' hemp q0 caps hcaps
    · rw [Bool.not_eq_true] at hna
      cases hmc : pyFloat r.marketCap with
      | none =>
        have hrc : ¬r.name = c := by
          intro he
          obtain ⟨q, hq⟩ := hv r (List.mem_cons_self r rs) he
          rw [hmc] at hq
          exact Option.noConfusion hq
        rw [capsOf_cons_skip c r rs hrc] at hcaps
        simp only [newRowsOf, hna, Bool.false_eq_true, if_false, hmc]
        exact ih db hv' hemp q0 caps hcaps
      | some v =>
        by_cases hrc : r.name = c
        · obtain ⟨q, hq⟩ := hv r (List.mem_cons_self r rs) hrc
          rw [hmc] at hq
          obtain rfl : v = PFloat.num q := Option.some.inj hq
          rw [capsOf_cons_num c r rs q hrc hmc] at hcaps
          obtain ⟨rfl, rfl⟩ : q = q0 ∧ capsOf c rs = caps := by
            have h1 := List.head_eq_of_cons_eq hcaps
            have h2 := List.tail_eq_of_cons_eq hcaps
            exact ⟨h1, h2⟩
          simp only [newRowsOf, hna, Bool.false_eq_true, if_false, hmc]
          set nr := insertedRow d db r (PFloat.num q) with hnr
          have hmd0 : minDate (rowsNamed db r.name) = none := by
            rw [hrc, hemp]; rfl
          have hnr_eq : nr
              = (⟨d, r.name, some (PFloat.num q), d, some (PFloat.num q), r.others⟩ : Row) := by
            rw [hnr, insertedRow, hmd0]
            rfl
          have hname : nr.name = c := by rw [hnr_eq]; exact hrc
          have hdbc : rowsNamed (db ++ [nr]) c = [nr] := by
            rw [rowsNamed_append, rowsNamed_single_eq nr c hname, hemp, List.nil_append]
          have h1' : minDate (rowsNamed (db ++ [nr]) c) = some d := by
            rw [hdbc, hnr_eq]
            rfl
          have h2' : minMcap (rowsNamed (db ++ [nr]) c) = some (PFloat.num q) := by
            rw [hdbc, hnr_eq]
            rfl
          have hstep := ingest_dup_trace c d hc rs (db ++ [nr]) q hv' h1' h2'
          have hassoc : db ++ nr :: newRowsOf d (db ++ [nr]) rs
              = (db ++ [nr]) ++ newRowsOf d (db ++ [nr]) rs := by
            simp [List.append_assoc]
          rw [hassoc, hstep, hdbc]
          have hcore : rowCore nr = (d, some (PFloat.num q), d, some (PFloat.num q)) := by
            rw [hnr_eq]; rfl
          simp [hcore]
        · simp only [newRowsOf, hna, Bool.false_eq_true, if_false, hmc]
          set nr := insertedRow d db r v with hnr
          have hname : ¬nr.name = c := by
            rw [hnr, insertedRow]
            cases hmd : minDate (rowsNamed db r.name) <;> simpa using hrc
          have hdbc : rowsNamed (db ++ [nr]) c = rowsNamed db c := by
            rw [rowsNamed_append, rowsNamed_single_ne nr c hname, List.append_nil]
          rw [capsOf_cons_skip c r rs hrc] at hcaps
          have hstep := ih (db ++ [nr]) hv' (by rw [hdbc]; exact hemp) q0 caps hcaps
          have hassoc : db ++ nr :: newRowsOf d (db ++ [nr]) rs
              = (db ++ [nr]) ++ newRowsOf d (db ++ [nr]) rs := by
            simp [List.append_assoc]
          rw [hassoc, hstep]

/-- C10.  Inside one ingestion call over a store holding no rows for
company `c`, when `c` occurs several times in the extract (all its
occurrences carrying numeric market caps, with cap list `q0 :: caps`),
the call inserts one row per occurrence, every occurrence after the first
sees the earlier occurrences of the same call as prior history — the
uncommitted inserts are visible to the `SELECT MIN(date), MIN(market_cap)`
on the same connection — so each later row stores the call's own load date
as `first_seen_date` and the minimum of the earlier occurrences' caps
(`min` folded over the caps before it) as `first_market_cap`, not its own
cap. -/
theorem C10_intra_call_duplicates (db : List Row) (e : Extract) (d : ℤ) (c : Cell)
    (q0 : ℚ) (caps : List ℚ)
    (hhdr : "Name" ∈ e.headers.map stripStr ∧
      "Market Capitalization" ∈ e.headers.map stripStr)
    (hc : pdIsna c = false)
    (hprior : rowsNamed db c = [])
    (hvalid : ∀ r ∈ e.rows, r.name = c → ∃ q : ℚ, pyFloat r.marketCap = some (PFloat.num q))
    (hcaps : capsOf c e.rows = q0 :: caps) :
    ((rowsNamed (ingestFile db e d).1 c).map rowCore
        = (d, some (PFloat.num q0), d, some (PFloat.num q0)) :: dupTrace d q0 caps) ∧
      (rowsNamed (ingestFile db e d).1 c).length = (capsOf c e.rows).length ∧
      (∀ k : ℕ, (dupTrace d q0 caps)[k]?
        = (caps[k]?).map (fun q => (d, some (PFloat.num q), d,
            some (PFloat.num ((caps.take k).foldl min q0))))) := by
  have hstore : (ingestFile db e d).1 = db ++ newRowsOf d db e.rows := by
    simp only [ingestFile]
    rw [if_pos hhdr, ingestRows_eq d e.rows db]
  have htrace := ingest_first_trace c d hc e.rows db hvalid hprior q0 caps hcaps
  rw [hstore]
  refine ⟨htrace, ?_, fun k => dupTrace_getElem d caps q0 k⟩
  have hlen : ((rowsNamed (db ++ newRowsOf d db e.rows) c).map rowCore).length
      = caps.length + 1 := by
    rw [htrace]
    simp [dupTrace_length]
  rw [List.length_map] at hlen
  rw [hlen, hcaps]
  simp

/-- Witness for C10: company D ingested three times in one call with caps
9, 4 and 6 over the empty store. -/
theorem C10_intra_call_duplicates_witness :
    ("Name" ∈ dupExtract.headers.map stripStr ∧
        "Market Capitalization" ∈ dupExtract.headers.map stripStr) ∧
      pdIsna (Cell.str "D") = false ∧
      rowsNamed [] (Cell.str "D") = [] ∧
      capsOf (Cell.str "D") dupExtract.rows = 9 :: [4, 6] ∧
      ((rowsNamed (ingestFile [] dupExtract 7).1 (Cell.str "D")).map rowCore
        = (7, some (PFloat.num 9), 7, some (PFloat.num 9)) :: dupTrace 7 9 [4, 6]) := by
  refine ⟨by decide, by decide, rfl, by decide, ?_⟩
  have hvalid : ∀ r ∈ dupExtract.rows, r.name = Cell.str "D" →
      ∃ q : ℚ, pyFloat r.marketCap = some (PFloat.num q) := by
    intro r hr hnm
    simp only [dupExtract, List.mem_cons, List.not_mem_nil, or_false] at hr
    rcases hr with rfl | rfl | rfl
    · exact ⟨9, rfl⟩
    · exact ⟨4, rfl⟩
    · exact ⟨6, rfl⟩
  exact (C10_intra_call_duplicates [] dupExtract 7 (Cell.str "D") 9 [4, 6]
    (by decide) (by decide) rfl hvalid (by decide)).1
